import Mathlib

/-!
Shallow embedding of `src/main.py` of the ai-resume-analyzer backend.

Strings are modelled as `List Char`.  Python's substring operator
`needle in haystack` is modelled by `hasSub`, Python's `str.endswith`
by `endsW`, `str.lower` by `pyLower`, whitespace `str.split()` word
count by `wordCount`, `", ".join` / `.split(", ")` by `pyJoin` /
`pySplit2`, and the SQLModel/SQLite store by an explicit `Store` state.
-/

/-- The characters of a string, the representation used throughout. -/
abbrev Str := List Char

/-- Test whether `hay` starts with `needle` (the scanner step of Python's `in`). -/
def startsW : Str → Str → Bool
  | [], _ => true
  | _ :: _, [] => false
  | a :: as, b :: bs => a == b && startsW as bs

/-- Python's substring test `needle in hay`. -/
def hasSub (needle : Str) : Str → Bool
  | [] => startsW needle []
  | c :: t => startsW needle (c :: t) || hasSub needle t

/-- Python's `s.endswith(suf)`. -/
def endsW (suf s : Str) : Bool := startsW suf.reverse s.reverse

/-- Python's `str.lower`, modelled character-wise. -/
def pyLower (s : Str) : Str := s.map Char.toLower

/-- The fixed skill taxonomy, `REQUIRED_SKILLS` of `src/main.py` (lines 42-45). -/
def REQUIRED_SKILLS : List Str :=
  ["python".toList, "java".toList, "c++".toList, "machine learning".toList,
   "fastapi".toList, "sql".toList, "data structures".toList,
   "algorithms".toList, "git".toList, "api".toList, "html".toList,
   "css".toList, "javascript".toList]

/-- The transient analysis result returned by `analyze_resume`
(`score` is kept as the integer; the handler renders it as `f"{score}%"`,
see `scoreStr`). -/
structure AnalysisResult where
  skills_found : List Str
  skills_missing : List Str
  score : Nat
  suggestions : List Str
  deriving Repr, DecidableEq

/-- Suggestion message appended when `score < 60` (line 65). -/
def msgSkills : Str := "Add more technical skills relevant to your field.".toList

/-- Suggestion message appended when "project" is absent (line 67). -/
def msgProject : Str := "Include at least one project section.".toList

/-- Suggestion message appended when "experience" is absent (line 69). -/
def msgExperience : Str := "Add an experience section even for internships.".toList

/-- `analyze_resume` of `src/main.py` (lines 57-76).  The score is
`int((len(found)/13)*100)` in the source; over the only possible counts
0..13 the float computation truncates to exactly `100 * n / 13` in
integer division (the product is integral only at n = 0 and n = 13,
where the doubles are exact), so it is embedded as `Nat` division. -/
def analyze_resume (text : Str) : AnalysisResult :=
  let found_skills := REQUIRED_SKILLS.filter (fun skill => hasSub skill text)
  let missing_skills := REQUIRED_SKILLS.filter (fun skill => !(hasSub skill text))
  let score := 100 * found_skills.length / REQUIRED_SKILLS.length
  let suggestions : List Str := []
  let suggestions := if score < 60 then suggestions ++ [msgSkills] else suggestions
  let suggestions := if !(hasSub "project".toList text) then suggestions ++ [msgProject] else suggestions
  let suggestions := if !(hasSub "experience".toList text) then suggestions ++ [msgExperience] else suggestions
  { skills_found := found_skills, skills_missing := missing_skills,
    score := score, suggestions := suggestions }

/-- `extract_text_from_pdf` of `src/main.py` (lines 48-54), with the PDF
library's per-page `page.get_text()` results taken as the input: the page
texts are accumulated with `text += page.get_text()` and the result is
lower-cased. -/
def extract_text_from_pdf (pages : List Str) : Str :=
  pyLower (pages.foldl (fun text page => text ++ page) [])

/-- Whitespace characters recognised by Python's no-argument `str.split()`
(the ASCII ones; the inputs here are `page.get_text()` output). -/
def isSpace (c : Char) : Bool :=
  c == ' ' || c == '\t' || c == '\n' || c == '\r' || c == '\x0b' || c == '\x0c'

/-- Helper for `wordCount`: `inWord` records whether the previous character
was part of a word. -/
def wordCountAux : Str → Bool → Nat
  | [], _ => 0
  | c :: t, inWord =>
    if isSpace c then wordCountAux t false
    else (if inWord then 0 else 1) + wordCountAux t true

/-- `len(text.split())` of line 100: the number of maximal whitespace-free
runs in `text`. -/
def wordCount (s : Str) : Nat := wordCountAux s false

/-- The serialized score `f"{score}%"` of line 74. -/
def scoreStr (score : Nat) : Str := (toString score).toList ++ ['%']

/-- Python's `sep.join(xs)` (lines 101-104). -/
def pyJoin (sep : Str) : List Str → Str
  | [] => []
  | [x] => x
  | x :: y :: rest => x ++ sep ++ pyJoin sep (y :: rest)

/-- Python's `s.split(sep)` for a two-character separator `[a, b]`
(both separators of `src/main.py`, `", "` and `"; "`, have two
characters): scan left to right, cutting at each non-overlapping
occurrence. -/
def pySplit2 (a b : Char) : Str → List Str
  | [] => [[]]
  | [c] => [[c]]
  | c :: d :: rest =>
    if c == a && d == b then [] :: pySplit2 a b rest
    else
      match pySplit2 a b (d :: rest) with
      | [] => [[c]]
      | s :: ss => (c :: s) :: ss

/-- The guarded read `r.field.split(sep) if r.field else []` of lines
130-133 and 150-153 (Python's empty string is falsy). -/
def splitOrEmpty (a b : Char) (s : Str) : List Str :=
  if s = [] then [] else pySplit2 a b s

/-- Test for an adjacent occurrence of the two-character separator
`[a, b]` inside a string. -/
def hasPair (a b : Char) : Str → Bool
  | c :: d :: rest => (c == a && d == b) || hasPair a b (d :: rest)
  | _ => false

/-- The persisted row, class `ResumeData` of `src/main.py` (lines 26-33):
the list fields are stored as delimited strings. -/
structure ResumeData where
  id : Nat
  filename : Str
  total_words : Nat
  skills_found : Str
  skills_missing : Str
  resume_score : Str
  suggestions : Str
  deriving Repr, DecidableEq

/-- Modelled from the spec: the database state behind the SQLModel
session.  Id assignment is performed by the external SQLite engine, not
by code under `src/`; per spec 4.3 `create` assigns a fresh unique id,
modelled as the monotone counter `nextId`. -/
structure Store where
  nextId : Nat
  records : List ResumeData
  deriving Repr, DecidableEq

/-- The empty database; SQLite row ids start at 1. -/
def Store.init : Store := { nextId := 1, records := [] }

/-- The row built at lines 98-105 for a given assigned id, filename,
extracted text and analysis. -/
def mkRecord (rid : Nat) (filename text : Str) (analysis : AnalysisResult) : ResumeData :=
  { id := rid, filename := filename, total_words := wordCount text,
    skills_found := pyJoin ", ".toList analysis.skills_found,
    skills_missing := pyJoin ", ".toList analysis.skills_missing,
    resume_score := scoreStr analysis.score,
    suggestions := pyJoin "; ".toList analysis.suggestions }

/-- Response of `POST /upload_resume`: either HTTP 400 for a non-PDF
filename, or the success payload (message, resume_id, analysis). -/
inductive UploadResult where
  | badRequest
  | ok (resume_id : Nat) (analysis : AnalysisResult)
  deriving Repr, DecidableEq

/-- `upload_resume` of `src/main.py` (lines 85-116): reject filenames not
ending in ".pdf" with 400 before touching the store, otherwise extract,
analyze, persist one row and return its id and the analysis. -/
def upload_resume (st : Store) (filename : Str) (pages : List Str) : Store × UploadResult :=
  if !(endsW ".pdf".toList filename) then (st, .badRequest)
  else
    let text := extract_text_from_pdf pages
    let analysis := analyze_resume text
    let entry := mkRecord st.nextId filename text analysis
    ({ nextId := st.nextId + 1, records := st.records ++ [entry] },
      .ok st.nextId analysis)

/-- Response of `GET /resume/{id}`: 404, or the formatted record with the
delimited strings split back into lists. -/
inductive GetResult where
  | notFound
  | found (id : Nat) (filename : Str) (skills_found skills_missing : List Str)
      (resume_score : Str) (suggestions : List Str)
  deriving Repr, DecidableEq

/-- `get_resume` of `src/main.py` (lines 139-155): `session.get` by
primary key, 404 when absent, otherwise the formatted dict. -/
def get_resume (st : Store) (rid : Nat) : GetResult :=
  match st.records.find? (fun r => r.id == rid) with
  | none => .notFound
  | some r =>
      .found r.id r.filename
        (splitOrEmpty ',' ' ' r.skills_found)
        (splitOrEmpty ',' ' ' r.skills_missing)
        r.resume_score
        (splitOrEmpty ';' ' ' r.suggestions)

/-- `get_all_resumes` of `src/main.py` (lines 119-136): every record, in
stored order, formatted the same way as `get_resume`. -/
def get_all_resumes (st : Store) : List GetResult :=
  st.records.map (fun r =>
    .found r.id r.filename
      (splitOrEmpty ',' ' ' r.skills_found)
      (splitOrEmpty ',' ' ' r.skills_missing)
      r.resume_score
      (splitOrEmpty ';' ' ' r.suggestions))

/-- Response of `DELETE /resume/{id}`. -/
inductive DeleteResult where
  | notFound
  | deleted (rid : Nat)
  deriving Repr, DecidableEq

/-- `delete_resume` of `src/main.py` (lines 158-167): `session.get` by
primary key, 404 when absent, otherwise delete that row. -/
def delete_resume (st : Store) (rid : Nat) : Store × DeleteResult :=
  match st.records.find? (fun r => r.id == rid) with
  | none => (st, .notFound)
  | some _ =>
      ({ st with records := st.records.eraseP (fun r => r.id == rid) }, .deleted rid)

/-- `clear_all_resumes` of `src/main.py` (lines 170-176): raw
`DELETE FROM resumedata`. -/
def clear_all_resumes (st : Store) : Store := { st with records := [] }

/-- A request against the store, for stating store invariants over
arbitrary operation sequences. -/
inductive Op where
  | upload (filename : Str) (pages : List Str)
  | del (rid : Nat)

/-- Run one request and report the list of ids assigned by it (empty for
deletes and rejected uploads). -/
def applyOp (st : Store) : Op → Store × List Nat
  | .upload fn pages =>
      ((upload_resume st fn pages).1,
        match (upload_resume st fn pages).2 with
        | .badRequest => []
        | .ok rid _ => [rid])
  | .del rid => ((delete_resume st rid).1, [])

/-- Run a sequence of requests, collecting the assigned ids in order. -/
def runOps : Store → List Op → Store × List Nat
  | st, [] => (st, [])
  | st, op :: ops =>
      ((runOps (applyOp st op).1 ops).1,
        (applyOp st op).2 ++ (runOps (applyOp st op).1 ops).2)

/-- A text containing 11 of the 13 taxonomy skills plus the words
"project" and "experience"; used as concrete witness input. -/
def strongResume : Str :=
  "python java c++ machine learning fastapi sql git api html css javascript project experience".toList

/-- A concrete persisted row, used as witness input. -/
def sampleRec : ResumeData :=
  mkRecord 1 "resume.pdf".toList "python project experience".toList
    (analyze_resume "python project experience".toList)

/-- A concrete one-row store, used as witness input. -/
def sampleStore : Store := { nextId := 2, records := [sampleRec] }

theorem startsW_iff (n : Str) : ∀ h : Str, startsW n h = true ↔ ∃ t, h = n ++ t := by
  induction n with
  | nil => intro h; simp [startsW]
  | cons a as ih =>
    intro h
    cases h with
    | nil => simp [startsW]
    | cons b bs =>
      simp only [startsW, Bool.and_eq_true, beq_iff_eq, ih, List.cons_append,
        List.cons.injEq]
      constructor
      · rintro ⟨rfl, t, rfl⟩; exact ⟨t, rfl, rfl⟩
      · rintro ⟨t, rfl, rfl⟩; exact ⟨rfl, t, rfl⟩

theorem hasSub_iff (n : Str) : ∀ h : Str, hasSub n h = true ↔ ∃ p t, h = p ++ n ++ t := by
  intro h
  induction h with
  | nil =>
    simp only [hasSub, startsW_iff]
    constructor
    · rintro ⟨t, ht⟩
      exact ⟨[], t, by simpa using ht⟩
    · rintro ⟨p, t, hpt⟩
      refine ⟨t, ?_⟩
      have hp : p = [] := by
        cases p with
        | nil => rfl
        | cons x xs => simp at hpt
      subst hp; simpa using hpt
  | cons c cs ih =>
    simp only [hasSub, Bool.or_eq_true, startsW_iff, ih]
    constructor
    · rintro (⟨t, ht⟩ | ⟨p, t, ht⟩)
      · exact ⟨[], t, by simp [ht]⟩
      · exact ⟨c :: p, t, by simp [ht]⟩
    · rintro ⟨p, t, hpt⟩
      cases p with
      | nil => exact Or.inl ⟨t, by simpa using hpt⟩
      | cons x xs =>
        right
        rw [List.cons_append, List.cons_append, List.cons.injEq] at hpt
        exact ⟨xs, t, hpt.2⟩

theorem hasSub_trans {p q t : Str} (h1 : hasSub p q = true) (h2 : hasSub q t = true) :
    hasSub p t = true := by
  rw [hasSub_iff] at h1 h2 ⊢
  obtain ⟨a, b, rfl⟩ := h1
  obtain ⟨c, d, rfl⟩ := h2
  exact ⟨c ++ a, b ++ d, by simp⟩

theorem REQUIRED_SKILLS_nodup : REQUIRED_SKILLS.Nodup := by decide

/-- The suggestions list of `analyze_resume`, rewritten as the three
independent rules appended in their fixed order. -/
theorem suggestions_eq (T : Str) :
    (analyze_resume T).suggestions =
      (if (analyze_resume T).score < 60 then [msgSkills] else []) ++
      (if hasSub "project".toList T = false then [msgProject] else []) ++
      (if hasSub "experience".toList T = false then [msgExperience] else []) := by
  simp only [analyze_resume, Bool.not_eq_eq_eq_not, Bool.not_true]
  split_ifs <;> simp_all

/-- C1: For every normalized text, `skills_found` and `skills_missing`
are disjoint, every taxonomy entry lands in exactly one of them and only
taxonomy entries appear, each list has no duplicates, and each is a
sublist of the taxonomy (hence preserves its order). -/
theorem C1_found_missing_partition (T : Str) :
    (analyze_resume T).skills_found.Disjoint (analyze_resume T).skills_missing ∧
    (∀ s, s ∈ (analyze_resume T).skills_found ∨ s ∈ (analyze_resume T).skills_missing
        ↔ s ∈ REQUIRED_SKILLS) ∧
    (analyze_resume T).skills_found.Nodup ∧
    (analyze_resume T).skills_missing.Nodup ∧
    List.Sublist (analyze_resume T).skills_found REQUIRED_SKILLS ∧
    List.Sublist (analyze_resume T).skills_missing REQUIRED_SKILLS := by
  refine ⟨?_, ?_, ?_, ?_, ?_, ?_⟩
  · intro s hf hm
    simp only [analyze_resume, List.mem_filter, Bool.not_eq_eq_eq_not, Bool.not_true] at hf hm
    rw [hf.2] at hm
    exact absurd hm.2 (by simp)
  · intro s
    constructor
    · rintro (hf | hm)
      · exact (List.mem_filter.mp hf).1
      · exact (List.mem_filter.mp hm).1
    · intro hs
      by_cases h : hasSub s T = true
      · exact Or.inl (List.mem_filter.mpr ⟨hs, h⟩)
      · exact Or.inr (List.mem_filter.mpr ⟨hs, by simp [h]⟩)
  · simp only [analyze_resume]
    exact REQUIRED_SKILLS_nodup.filter _
  · simp only [analyze_resume]
    exact REQUIRED_SKILLS_nodup.filter _
  · simp only [analyze_resume]
    exact List.filter_sublist _
  · simp only [analyze_resume]
    exact List.filter_sublist _

/-- Witness for C1 at a concrete text: "python" is found, hence not missing. -/
theorem C1_found_missing_partition_witness :
    "python".toList ∉ (analyze_resume "python".toList).skills_missing :=
  (C1_found_missing_partition "python".toList).1 (by decide)

/-- C2: The computed score is exact integer division
`100 * |skills_found| / 13` with no rounding; 6 skills found yields 46. -/
theorem C2_score_is_floor_div (T : Str) :
    (analyze_resume T).score = 100 * (analyze_resume T).skills_found.length / 13 ∧
    ((analyze_resume T).skills_found.length = 6 → (analyze_resume T).score = 46) := by
  have h1 : (analyze_resume T).score = 100 * (analyze_resume T).skills_found.length / 13 := rfl
  exact ⟨h1, fun h6 => by rw [h1, h6]⟩

/-- Witness for C2: a text containing exactly 6 taxonomy skills scores 46. -/
theorem C2_score_is_floor_div_witness :
    (analyze_resume "python java c++ sql git html".toList).skills_found.length = 6 ∧
    (analyze_resume "python java c++ sql git html".toList).score = 46 :=
  ⟨by decide, (C2_score_is_floor_div "python java c++ sql git html".toList).2 (by decide)⟩

/-- C3: Suggestions are the three independent rules appended in fixed
order, and a text containing "project" and "experience" with score at
least 60 gets an empty suggestions list. -/
theorem C3_suggestion_rules (T : Str) :
    (analyze_resume T).suggestions =
      (if (analyze_resume T).score < 60 then [msgSkills] else []) ++
      (if hasSub "project".toList T = false then [msgProject] else []) ++
      (if hasSub "experience".toList T = false then [msgExperience] else []) ∧
    (hasSub "project".toList T = true → hasSub "experience".toList T = true →
      60 ≤ (analyze_resume T).score → (analyze_resume T).suggestions = []) := by
  refine ⟨suggestions_eq T, fun hp he hs => ?_⟩
  rw [suggestions_eq T]
  have hp' : hasSub ['p', 'r', 'o', 'j', 'e', 'c', 't'] T = true := hp
  have he' : hasSub ['e', 'x', 'p', 'e', 'r', 'i', 'e', 'n', 'c', 'e'] T = true := he
  simp [hp, he, hp', he', Nat.not_lt.mpr hs]

/-- Witness for C3: `strongResume` matches all three negated conditions and
gets an empty suggestions list. -/
theorem C3_suggestion_rules_witness :
    hasSub "project".toList strongResume = true ∧
    hasSub "experience".toList strongResume = true ∧
    60 ≤ (analyze_resume strongResume).score ∧
    (analyze_resume strongResume).suggestions = [] :=
  ⟨by decide, by decide, by decide,
    (C3_suggestion_rules strongResume).2 (by decide) (by decide) (by decide)⟩

/-- C9: The taxonomy in use has exactly 13 entries, so the division in
the score computation is never a division by zero. -/
theorem C9_taxonomy_thirteen :
    REQUIRED_SKILLS.length = 13 ∧ 0 < REQUIRED_SKILLS.length := by decide

/-- C10: Skill matching is raw substring containment, so "javascript"
found implies "java" found, and "fastapi" found implies "api" found. -/
theorem C10_substring_implications (T : Str) :
    ("javascript".toList ∈ (analyze_resume T).skills_found →
      "java".toList ∈ (analyze_resume T).skills_found) ∧
    ("fastapi".toList ∈ (analyze_resume T).skills_found →
      "api".toList ∈ (analyze_resume T).skills_found) := by
  constructor
  · intro h
    simp only [analyze_resume, List.mem_filter] at h ⊢
    exact ⟨by decide, hasSub_trans (by decide) h.2⟩
  · intro h
    simp only [analyze_resume, List.mem_filter] at h ⊢
    exact ⟨by decide, hasSub_trans (by decide) h.2⟩

theorem foldl_append_eq_join (pages : List Str) :
    ∀ acc : Str, pages.foldl (fun text page => text ++ page) acc = acc ++ pages.flatten := by
  induction pages with
  | nil => intro acc; simp
  | cons p ps ih => intro acc; simp [List.foldl_cons, ih, List.append_assoc]

/-- C5: The Text Normalizer is the lower-cased concatenation of the pages
in document order with no separator; the empty page sequence yields the
empty string (and the function is total, so there are no error
conditions). -/
theorem C5_normalizer_concat_lower (pages : List Str) :
    extract_text_from_pdf pages = pyLower pages.flatten ∧
    extract_text_from_pdf [] = ([] : Str) := by
  constructor
  · unfold extract_text_from_pdf
    rw [foldl_append_eq_join]
    simp
  · rfl

theorem pySplit2_boundary {a b : Char} (hab : a ≠ b) :
    ∀ x : Str, hasPair a b x = false →
      ∀ r : Str, pySplit2 a b (x ++ a :: b :: r) = x :: pySplit2 a b r := by
  have hbf : (a == b) = false := by simp [hab]
  intro x
  induction x with
  | nil =>
    intro _ r
    simp [pySplit2]
  | cons c x' ih =>
    intro h r
    cases x' with
    | nil =>
      simp [pySplit2, hbf]
    | cons d x'' =>
      have h' : ((c == a && d == b) || hasPair a b (d :: x'')) = false := h
      rw [Bool.or_eq_false_iff] at h'
      obtain ⟨h1, h2⟩ := h'
      have hrec := ih h2 r
      rw [List.cons_append] at hrec
      show pySplit2 a b (c :: d :: (x'' ++ a :: b :: r)) = (c :: d :: x'') :: pySplit2 a b r
      rw [pySplit2, if_neg (by simp [h1]), hrec]

theorem pySplit2_no_sep (a b : Char) :
    ∀ x : Str, hasPair a b x = false → pySplit2 a b x = [x] := by
  intro x
  induction x with
  | nil => intro _; rfl
  | cons c x' ih =>
    intro h
    cases x' with
    | nil => rfl
    | cons d x'' =>
      have h' : ((c == a && d == b) || hasPair a b (d :: x'')) = false := h
      rw [Bool.or_eq_false_iff] at h'
      obtain ⟨h1, h2⟩ := h'
      have hrec := ih h2
      rw [pySplit2, if_neg (by simp [h1]), hrec]

theorem pyJoin_ne_nil (sep : Str) :
    ∀ xs : List Str, xs ≠ [] → (∀ x ∈ xs, x ≠ []) → pyJoin sep xs ≠ [] := by
  intro xs
  match xs with
  | [] => intro h _; exact absurd rfl h
  | [x] => intro _ hx; simpa [pyJoin] using hx x (by simp)
  | x :: y :: rest =>
    intro _ hx
    simp [pyJoin, List.append_eq_nil, hx x (by simp)]

theorem pySplit2_pyJoin {a b : Char} (hab : a ≠ b) :
    ∀ xs : List Str, xs ≠ [] → (∀ x ∈ xs, hasPair a b x = false) →
      pySplit2 a b (pyJoin [a, b] xs) = xs := by
  intro xs
  induction xs with
  | nil => intro h _; exact absurd rfl h
  | cons x rest ih =>
    intro _ hnp
    cases rest with
    | nil => simpa [pyJoin] using pySplit2_no_sep a b x (hnp x (by simp))
    | cons y rest' =>
      have hx : hasPair a b x = false := hnp x (by simp)
      have hrec := ih (by simp) (fun z hz => hnp z (by simp [hz]))
      have hjoin : pyJoin [a, b] (x :: y :: rest') =
          x ++ a :: b :: pyJoin [a, b] (y :: rest') := by
        simp [pyJoin]
      rw [hjoin, pySplit2_boundary hab x hx, hrec]

theorem splitOrEmpty_pyJoin {a b : Char} (hab : a ≠ b) (xs : List Str)
    (hne : ∀ x ∈ xs, x ≠ []) (hnp : ∀ x ∈ xs, hasPair a b x = false) :
    splitOrEmpty a b (pyJoin [a, b] xs) = xs := by
  cases xs with
  | nil => rfl
  | cons x rest =>
    have hj : pyJoin [a, b] (x :: rest) ≠ [] := pyJoin_ne_nil _ _ (by simp) hne
    rw [splitOrEmpty, if_neg hj]
    exact pySplit2_pyJoin hab _ (by simp) hnp

/-- Witness for C10 at a concrete text containing "javascript" and "fastapi". -/
theorem C10_substring_implications_witness :
    "java".toList ∈ (analyze_resume "javascript fastapi".toList).skills_found ∧
    "api".toList ∈ (analyze_resume "javascript fastapi".toList).skills_found :=
  ⟨(C10_substring_implications "javascript fastapi".toList).1 (by decide),
   (C10_substring_implications "javascript fastapi".toList).2 (by decide)⟩

theorem req_ne_nil : ∀ s ∈ REQUIRED_SKILLS, s ≠ [] := by decide

theorem req_no_comma_pair : ∀ s ∈ REQUIRED_SKILLS, hasPair ',' ' ' s = false := by decide

theorem sugg_msgs_ne_nil : ∀ m ∈ [msgSkills, msgProject, msgExperience], m ≠ [] := by decide

theorem sugg_msgs_no_semi_pair :
    ∀ m ∈ [msgSkills, msgProject, msgExperience], hasPair ';' ' ' m = false := by decide

theorem found_subset (T : Str) :
    ∀ x ∈ (analyze_resume T).skills_found, x ∈ REQUIRED_SKILLS := by
  intro x hx
  simp only [analyze_resume, List.mem_filter] at hx
  exact hx.1

theorem missing_subset (T : Str) :
    ∀ x ∈ (analyze_resume T).skills_missing, x ∈ REQUIRED_SKILLS := by
  intro x hx
  simp only [analyze_resume, List.mem_filter] at hx
  exact hx.1

theorem mem_ite_singleton {c : Prop} [Decidable c] {z m : Str}
    (h : m ∈ (if c then [z] else [])) : m = z := by
  split at h
  · simpa using h
  · simp at h

theorem suggestions_mem (T : Str) :
    ∀ m ∈ (analyze_resume T).suggestions, m ∈ [msgSkills, msgProject, msgExperience] := by
  intro m hm
  rw [suggestions_eq] at hm
  simp only [List.mem_append] at hm
  rcases hm with (hm | hm) | hm
  · rw [mem_ite_singleton hm]; simp
  · rw [mem_ite_singleton hm]; simp
  · rw [mem_ite_singleton hm]; simp

theorem skills_roundtrip (xs : List Str) (hsub : ∀ x ∈ xs, x ∈ REQUIRED_SKILLS) :
    splitOrEmpty ',' ' ' (pyJoin ", ".toList xs) = xs := by
  rw [show (", ".toList : Str) = [',', ' '] from rfl]
  exact splitOrEmpty_pyJoin (by decide) xs
    (fun x hx => req_ne_nil x (hsub x hx))
    (fun x hx => req_no_comma_pair x (hsub x hx))

theorem suggestions_roundtrip (T : Str) :
    splitOrEmpty ';' ' ' (pyJoin "; ".toList (analyze_resume T).suggestions) =
      (analyze_resume T).suggestions := by
  rw [show ("; ".toList : Str) = [';', ' '] from rfl]
  exact splitOrEmpty_pyJoin (by decide) _
    (fun m hm => sugg_msgs_ne_nil m (suggestions_mem T m hm))
    (fun m hm => sugg_msgs_no_semi_pair m (suggestions_mem T m hm))

theorem find?_append_of_none {α} (p : α → Bool) :
    ∀ (l1 l2 : List α), (∀ x ∈ l1, p x = false) → (l1 ++ l2).find? p = l2.find? p := by
  intro l1
  induction l1 with
  | nil => intro l2 _; rfl
  | cons x t ih =>
    intro l2 h
    have hx : p x = false := h x (by simp)
    simp [List.find?, hx, ih l2 (fun y hy => h y (by simp [hy]))]

theorem upload_not_pdf (st : Store) (filename : Str) (pages : List Str)
    (h : endsW ".pdf".toList filename = false) :
    upload_resume st filename pages = (st, UploadResult.badRequest) := by
  have h' : endsW ['.', 'p', 'd', 'f'] filename = false := h
  simp [upload_resume, h']

theorem upload_pdf (st : Store) (filename : Str) (pages : List Str)
    (h : endsW ".pdf".toList filename = true) :
    upload_resume st filename pages =
      ({ nextId := st.nextId + 1,
         records := st.records ++ [mkRecord st.nextId filename (extract_text_from_pdf pages)
           (analyze_resume (extract_text_from_pdf pages))] },
       UploadResult.ok st.nextId (analyze_resume (extract_text_from_pdf pages))) := by
  have h' : endsW ['.', 'p', 'd', 'f'] filename = true := h
  simp [upload_resume, h']

/-- C4: A record created by a successful upload reads back via getById
with exactly the original `skills_found`, `skills_missing` and
`suggestions` lists: the delimited-string storage round-trips, including
the empty-list case. -/
theorem C4_upload_get_roundtrip (st : Store) (filename : Str) (pages : List Str)
    (hwf : ∀ r ∈ st.records, r.id < st.nextId)
    (hpdf : endsW ".pdf".toList filename = true) :
    get_resume (upload_resume st filename pages).1 st.nextId =
      GetResult.found st.nextId filename
        (analyze_resume (extract_text_from_pdf pages)).skills_found
        (analyze_resume (extract_text_from_pdf pages)).skills_missing
        (scoreStr (analyze_resume (extract_text_from_pdf pages)).score)
        (analyze_resume (extract_text_from_pdf pages)).suggestions ∧
    get_all_resumes (upload_resume st filename pages).1 =
      get_all_resumes st ++
        [GetResult.found st.nextId filename
          (analyze_resume (extract_text_from_pdf pages)).skills_found
          (analyze_resume (extract_text_from_pdf pages)).skills_missing
          (scoreStr (analyze_resume (extract_text_from_pdf pages)).score)
          (analyze_resume (extract_text_from_pdf pages)).suggestions] := by
  constructor
  case right =>
    rw [upload_pdf st filename pages hpdf]
    simp only [get_all_resumes, List.map_append, List.map_cons, List.map_nil, mkRecord]
    rw [skills_roundtrip _ (found_subset _), skills_roundtrip _ (missing_subset _),
      suggestions_roundtrip]
  rw [upload_pdf st filename pages hpdf]
  have hnone : ∀ r ∈ st.records, (fun r : ResumeData => r.id == st.nextId) r = false := by
    intro r hr
    simp [Nat.ne_of_lt (hwf r hr)]
  have hfind : (st.records ++ [mkRecord st.nextId filename (extract_text_from_pdf pages)
      (analyze_resume (extract_text_from_pdf pages))]).find?
        (fun r => r.id == st.nextId) =
      some (mkRecord st.nextId filename (extract_text_from_pdf pages)
        (analyze_resume (extract_text_from_pdf pages))) := by
    rw [find?_append_of_none _ _ _ hnone]
    simp [List.find?, mkRecord]
  simp only [get_resume, hfind]
  simp only [mkRecord]
  rw [skills_roundtrip _ (found_subset _), skills_roundtrip _ (missing_subset _),
    suggestions_roundtrip]

/-- Witness for C4: uploading a strong resume into the empty store and
reading id 1 back returns the original lists (here `suggestions` is the
empty list, exercising the empty round-trip). -/
theorem C4_upload_get_roundtrip_witness :
    get_resume (upload_resume Store.init "resume.pdf".toList [strongResume]).1 1 =
      GetResult.found 1 "resume.pdf".toList
        (analyze_resume (extract_text_from_pdf [strongResume])).skills_found
        (analyze_resume (extract_text_from_pdf [strongResume])).skills_missing
        (scoreStr (analyze_resume (extract_text_from_pdf [strongResume])).score)
        (analyze_resume (extract_text_from_pdf [strongResume])).suggestions :=
  (C4_upload_get_roundtrip Store.init "resume.pdf".toList [strongResume]
    (by simp [Store.init]) (by decide)).1

/-- C6: An upload with a filename not ending in ".pdf" is rejected with
status 400 and the store is unchanged; with a ".pdf" filename the upload
persists exactly one new record and returns its id and analysis. -/
theorem C6_upload_reject_or_persist (st : Store) (filename : Str) (pages : List Str) :
    (endsW ".pdf".toList filename = false →
      upload_resume st filename pages = (st, UploadResult.badRequest)) ∧
    (endsW ".pdf".toList filename = true →
      (upload_resume st filename pages).1.records =
        st.records ++ [mkRecord st.nextId filename (extract_text_from_pdf pages)
          (analyze_resume (extract_text_from_pdf pages))] ∧
      (upload_resume st filename pages).2 =
        UploadResult.ok st.nextId (analyze_resume (extract_text_from_pdf pages))) :=
  ⟨fun h => upload_not_pdf st filename pages h,
   fun h => by rw [upload_pdf st filename pages h]; exact ⟨rfl, rfl⟩⟩

/-- Witness for C6: "resume.docx" is rejected leaving the store as it
was; "cv.pdf" appends exactly one record. -/
theorem C6_upload_reject_or_persist_witness :
    upload_resume sampleStore "resume.docx".toList ["text".toList] =
      (sampleStore, UploadResult.badRequest) ∧
    (upload_resume sampleStore "cv.pdf".toList ["text".toList]).1.records =
      sampleStore.records ++ [mkRecord 2 "cv.pdf".toList (extract_text_from_pdf ["text".toList])
        (analyze_resume (extract_text_from_pdf ["text".toList]))] :=
  ⟨(C6_upload_reject_or_persist sampleStore "resume.docx".toList ["text".toList]).1 (by decide),
   ((C6_upload_reject_or_persist sampleStore "cv.pdf".toList ["text".toList]).2 (by decide)).1⟩

theorem eraseP_eq_filter_of_nodup_ids (rid : Nat) :
    ∀ l : List ResumeData, (l.map ResumeData.id).Nodup →
      l.eraseP (fun r => r.id == rid) = l.filter (fun r => !(r.id == rid)) := by
  intro l
  induction l with
  | nil => intro _; rfl
  | cons r t ih =>
    intro hnd
    rw [List.map_cons, List.nodup_cons] at hnd
    by_cases h : r.id = rid
    · have hall : ∀ x ∈ t, (!(x.id == rid)) = true := by
        intro x hx
        have hne : x.id ≠ rid := by
          intro he
          have hmm : r.id ∈ List.map ResumeData.id t := by
            rw [h, ← he]
            exact List.mem_map_of_mem ResumeData.id hx
          exact hnd.1 hmm
        simp [hne]
      simp [List.eraseP_cons, List.filter_cons, h, List.filter_eq_self.mpr hall]
    · have hb : (r.id == rid) = false := by simp [h]
      simp [List.eraseP_cons, List.filter_cons, hb, ih hnd.2]

/-- C7: Deleting an id absent from the store reports NotFound and leaves
the store unchanged; deleting a present id (under the store invariant of
unique ids) removes exactly that record and succeeds. -/
theorem C7_delete_semantics (st : Store) (rid : Nat) :
    ((∀ r ∈ st.records, r.id ≠ rid) →
      delete_resume st rid = (st, DeleteResult.notFound)) ∧
    (∀ rec, rec ∈ st.records → rec.id = rid →
      (st.records.map ResumeData.id).Nodup →
      (delete_resume st rid).2 = DeleteResult.deleted rid ∧
      rec ∉ (delete_resume st rid).1.records ∧
      (∀ r ∈ st.records, r.id ≠ rid → r ∈ (delete_resume st rid).1.records) ∧
      (delete_resume st rid).1.records.length + 1 = st.records.length) := by
  constructor
  · intro habs
    have hfind : st.records.find? (fun r => r.id == rid) = none := by
      rw [List.find?_eq_none]
      intro r hr
      simp [habs r hr]
    simp [delete_resume, hfind]
  · intro rec hmem hid hnd
    obtain ⟨r0, hr0⟩ : ∃ r0, st.records.find? (fun r => r.id == rid) = some r0 := by
      cases hf : st.records.find? (fun r => r.id == rid) with
      | some r0 => exact ⟨r0, rfl⟩
      | none =>
        rw [List.find?_eq_none] at hf
        exact absurd (by simp [hid]) (hf rec hmem)
    have hdel : delete_resume st rid =
        ({ st with records := st.records.eraseP (fun r => r.id == rid) },
          DeleteResult.deleted rid) := by
      simp [delete_resume, hr0]
    refine ⟨by rw [hdel], ?_, ?_, ?_⟩
    · rw [hdel]
      show rec ∉ st.records.eraseP (fun r => r.id == rid)
      rw [eraseP_eq_filter_of_nodup_ids rid st.records hnd]
      intro hcontra
      have := (List.mem_filter.mp hcontra).2
      simp [hid] at this
    · intro r hr hne
      rw [hdel]
      show r ∈ st.records.eraseP (fun r => r.id == rid)
      rw [eraseP_eq_filter_of_nodup_ids rid st.records hnd]
      exact List.mem_filter.mpr ⟨hr, by simp [hne]⟩
    · rw [hdel]
      show (st.records.eraseP (fun r => r.id == rid)).length + 1 = st.records.length
      rw [List.length_eraseP_of_mem hmem (by simp [hid])]
      have hpos : 0 < st.records.length := List.length_pos_of_mem hmem
      omega

/-- Witness for C7 at the concrete one-row store: deleting id 5 reports
NotFound and changes nothing; deleting id 1 removes the row. -/
theorem C7_delete_semantics_witness :
    delete_resume sampleStore 5 = (sampleStore, DeleteResult.notFound) ∧
    (delete_resume sampleStore 1).2 = DeleteResult.deleted 1 ∧
    sampleRec ∉ (delete_resume sampleStore 1).1.records :=
  ⟨(C7_delete_semantics sampleStore 5).1 (by decide),
   ((C7_delete_semantics sampleStore 1).2 sampleRec (by decide) (by decide) (by decide)).1,
   ((C7_delete_semantics sampleStore 1).2 sampleRec (by decide) (by decide) (by decide)).2.1⟩

theorem chain'_append_of_short {R : Nat → Nat → Prop} :
    ∀ l1 l2 : List Nat, l1.length ≤ 1 → List.Chain' R l2 →
      (∀ x ∈ l1, ∀ y ∈ l2, R x y) → List.Chain' R (l1 ++ l2) := by
  intro l1 l2 hl h2 h
  match l1, hl with
  | [], _ => simpa using h2
  | [x], _ =>
    cases l2 with
    | nil => simp
    | cons y t =>
      exact List.chain'_cons.mpr ⟨h x (by simp) y (by simp), h2⟩

theorem applyOp_inv (st : Store) (op : Op)
    (h1 : ∀ r ∈ st.records, r.id < st.nextId)
    (h2 : (st.records.map ResumeData.id).Nodup) :
    (∀ r ∈ (applyOp st op).1.records, r.id < (applyOp st op).1.nextId) ∧
    ((applyOp st op).1.records.map ResumeData.id).Nodup ∧
    (∀ i ∈ (applyOp st op).2, st.nextId ≤ i ∧ i < (applyOp st op).1.nextId) ∧
    st.nextId ≤ (applyOp st op).1.nextId ∧
    (applyOp st op).2.length ≤ 1 := by
  cases op with
  | del rid =>
    have hsub : List.Sublist (delete_resume st rid).1.records st.records := by
      unfold delete_resume
      cases hf : st.records.find? (fun r => r.id == rid) with
      | none => simp
      | some r => simp [List.eraseP_sublist]
    have hnext : (delete_resume st rid).1.nextId = st.nextId := by
      unfold delete_resume
      cases hf : st.records.find? (fun r => r.id == rid) <;> simp
    have ha : applyOp st (Op.del rid) = ((delete_resume st rid).1, []) := rfl
    rw [ha]
    refine ⟨?_, ?_, by simp, by simp [hnext], by simp⟩
    · intro r hr
      show r.id < (delete_resume st rid).1.nextId
      rw [hnext]
      exact h1 r (hsub.subset hr)
    · exact h2.sublist (hsub.map ResumeData.id)
  | upload fn pages =>
    by_cases hp : endsW ".pdf".toList fn = true
    · have ha : applyOp st (Op.upload fn pages) =
          ({ nextId := st.nextId + 1,
             records := st.records ++ [mkRecord st.nextId fn (extract_text_from_pdf pages)
               (analyze_resume (extract_text_from_pdf pages))] },
           [st.nextId]) := by
        simp [applyOp, upload_pdf st fn pages hp]
      rw [ha]
      refine ⟨?_, ?_, ?_, ?_, ?_⟩
      · intro r hr
        simp only [List.mem_append, List.mem_singleton] at hr
        rcases hr with hr | hr
        · exact Nat.lt_succ_of_lt (h1 r hr)
        · rw [hr]; exact Nat.lt_succ_self _
      · rw [List.map_append, List.nodup_append]
        refine ⟨h2, by simp [mkRecord], ?_⟩
        intro i hi hj
        simp only [List.map_cons, List.map_nil, List.mem_singleton, mkRecord] at hj
        obtain ⟨r, hr, hid⟩ := List.mem_map.mp hi
        have := h1 r hr
        omega
      · intro i hi
        simp only [List.mem_singleton] at hi
        rw [hi]
        exact ⟨Nat.le_refl _, Nat.lt_succ_self _⟩
      · exact Nat.le_succ _
      · simp
    · have hp' : endsW ".pdf".toList fn = false := by simpa using hp
      have ha : applyOp st (Op.upload fn pages) = (st, []) := by
        simp [applyOp, upload_not_pdf st fn pages hp']
      rw [ha]
      exact ⟨h1, h2, by simp, Nat.le_refl _, by simp⟩

theorem runOps_inv :
    ∀ (ops : List Op) (st : Store),
      (∀ r ∈ st.records, r.id < st.nextId) →
      (st.records.map ResumeData.id).Nodup →
      (∀ r ∈ (runOps st ops).1.records, r.id < (runOps st ops).1.nextId) ∧
      ((runOps st ops).1.records.map ResumeData.id).Nodup ∧
      List.Chain' (fun i j => i < j) (runOps st ops).2 ∧
      (∀ i ∈ (runOps st ops).2, st.nextId ≤ i ∧ i < (runOps st ops).1.nextId) ∧
      st.nextId ≤ (runOps st ops).1.nextId := by
  intro ops
  induction ops with
  | nil =>
    intro st h1 h2
    exact ⟨h1, h2, by simp [runOps], by simp [runOps], Nat.le_refl _⟩
  | cons op ops ih =>
    intro st h1 h2
    obtain ⟨a1, a2, a3, a4, a5⟩ := applyOp_inv st op h1 h2
    obtain ⟨b1, b2, b3, b4, b5⟩ := ih (applyOp st op).1 a1 a2
    have hrun1 : (runOps st (op :: ops)).1 = (runOps (applyOp st op).1 ops).1 := rfl
    have hrun2 : (runOps st (op :: ops)).2 =
        (applyOp st op).2 ++ (runOps (applyOp st op).1 ops).2 := rfl
    rw [hrun1, hrun2]
    refine ⟨b1, b2, ?_, ?_, Nat.le_trans a4 b5⟩
    · exact chain'_append_of_short _ _ a5 b3
        (fun x hx y hy => Nat.lt_of_lt_of_le (a3 x hx).2 (b4 y hy).1)
    · intro i hi
      rcases List.mem_append.mp hi with hi | hi
      · exact ⟨(a3 i hi).1, Nat.lt_of_lt_of_le (a3 i hi).2 b5⟩
      · exact ⟨Nat.le_trans a4 (b4 i hi).1, (b4 i hi).2⟩

/-- C8: Over any sequence of upload and delete requests starting from the
empty store, the ids assigned to created records are strictly increasing
across all creations, and the live records always have pairwise distinct
ids. -/
theorem C8_id_monotone_unique (ops : List Op) :
    List.Chain' (fun i j => i < j) (runOps Store.init ops).2 ∧
    ((runOps Store.init ops).1.records.map ResumeData.id).Nodup := by
  obtain ⟨h1, h2, h3, h4, h5⟩ :=
    runOps_inv ops Store.init (by simp [Store.init]) (by simp [Store.init])
  exact ⟨h3, h2⟩
